import Mathlib

/-!
Verification of the gsw-rs library: a GSW (Gentry-Sahai-Waters) fully
homomorphic encryption scheme over LWE.  The Rust sources
(`src/modular.rs`, `src/params.rs`, `src/gadget.rs`, `src/lwe.rs`,
`src/gsw.rs`, `src/bootstrap.rs`) are shallowly embedded below:

* ring elements (`u64` values of `Z_q`) become `ℕ`, signed 64-bit
  accumulators become `ℤ` (the shipped parameter sets never overflow
  an `i64`, so this is faithful);
* Rust's truncated `%` and `/` on `i64` become `Int.tmod` / `Int.tdiv`;
* vectors and matrices become `List ℕ` and `List (List ℕ)`; loops that
  build a vector become `List.range`/`map`/`foldl`, and indexed reads
  become `List.getD _ 0` (the theorems carry the length hypotheses under
  which every read is in bounds, matching the panic-free executions);
* the callers' random samples (secret `t`, matrix `B`, error `e`, the
  binary matrix `R`) are passed as explicit arguments;
* the single floating-point step, `((val as f64) / (scale as f64)).round()`
  in `decrypt`, is embedded as exact rational rounding: both operands are
  nonnegative integers below `2^l`, the quotient is an exactly
  representable dyadic for every shipped parameter set (`l ≤ 53`), and on
  nonnegative values Rust's round-half-away-from-zero agrees with
  Mathlib's `round`.
-/

namespace Gsw

/-- Security level presets (src/params.rs `SecurityLevel`). -/
inductive SecurityLevel where
  | toy
  | low
  | medium
deriving DecidableEq

/-- LWE/GSW instance parameters (src/params.rs `Params`). -/
structure Params where
  q : ℕ
  n : ℕ
  l : ℕ
  n_expanded : ℕ
  m : ℕ
  error_bound : ℤ
deriving DecidableEq

/-- Derivation of `l` and `N` (src/params.rs `with_derived`).  The source
computes `(q as f64).log2() as usize`, which is exact on the power-of-two
moduli the presets use; it is embedded as `Nat.log2`. -/
def Params.with_derived (p : Params) : Params :=
  { p with l := Nat.log2 p.q, n_expanded := (p.n + 1) * Nat.log2 p.q }

/-- Preset construction (src/params.rs `Params::new`). -/
def Params.new (level : SecurityLevel) : Params :=
  let p : Params :=
    match level with
    | .toy => { q := 1 <<< 20, n := 8, m := 256, error_bound := 1, l := 0, n_expanded := 0 }
    | .low => { q := 1 <<< 24, n := 24, m := 384, error_bound := 2, l := 0, n_expanded := 0 }
    | .medium => { q := 1 <<< 26, n := 48, m := 768, error_bound := 4, l := 0, n_expanded := 0 }
  p.with_derived

/-- Reduction of a signed value into `[0, q)` (src/modular.rs `mod_q`).
Rust's `%` on `i64` is the truncated remainder, embedded as `Int.tmod`. -/
def mod_q (val : ℤ) (q : ℕ) : ℕ :=
  let qi : ℤ := (q : ℤ)
  let r : ℤ := val.tmod qi
  (if r < 0 then r + qi else r).toNat

/-- Centered reduction into `(-q/2, q/2]` (src/modular.rs `mod_q_centered`).
Rust's `/` on `i64` is truncated division, embedded as `Int.tdiv`. -/
def mod_q_centered (val : ℤ) (q : ℕ) : ℤ :=
  let qi : ℤ := (q : ℤ)
  let r : ℤ := val.tmod qi
  if r > qi.tdiv 2 then r - qi
  else if r ≤ (-qi).tdiv 2 then r + qi
  else r

/-- BitDecomp (src/gadget.rs `bit_decomp`): decompose each entry into its
`l` low bits, least significant first. -/
def bit_decomp (v : List ℕ) (p : Params) : List ℕ :=
  v.flatMap (fun vi => (List.range p.l).map (fun i => (vi >>> i) &&& 1))

/-- BitDecompInverse (src/gadget.rs `bit_decomp_inverse`): reconstruct one
`Z_q` value from each chunk of `l` entries, using the full entry values
(not just the low bit) so that carries are preserved. -/
def bit_decomp_inverse (bits : List ℕ) (p : Params) : List ℕ :=
  let l := p.l
  let k := bits.length / l
  (List.range k).map (fun j =>
    mod_q (∑ i in Finset.range l, (bits.getD (j * l + i) 0 : ℤ) * 2 ^ i) p.q)

/-- Flatten (src/gadget.rs `flatten`): `bit_decomp ∘ bit_decomp_inverse`. -/
def flatten (v : List ℕ) (p : Params) : List ℕ :=
  bit_decomp (bit_decomp_inverse v p) p

/-- PowersOf2 (src/gadget.rs `powers_of_2`): entry `j*l + i` is
`b[j] * 2^i mod q`. -/
def powers_of_2 (b : List ℕ) (p : Params) : List ℕ :=
  b.flatMap (fun bi => (List.range p.l).map (fun i => mod_q ((bi : ℤ) * 2 ^ i) p.q))

/-- Row-wise Flatten of a matrix (src/gadget.rs `flatten_matrix`). -/
def flatten_matrix (matrix : List (List ℕ)) (p : Params) : List (List ℕ) :=
  matrix.map (fun row => flatten row p)

/-- Dot product of two vectors, the form used by the specification's
algebraic identities. -/
def dot (a b : List ℕ) : ℕ :=
  (List.zipWith (fun x y => x * y) a b).sum

/-- Secret key (src/lwe.rs `SecretKey`): `s = (1, -t_1, ..., -t_n)`. -/
structure SecretKey where
  s : List ℕ
  params : Params

/-- Public key (src/lwe.rs `PublicKey`): the matrix `A` with first column `b`. -/
structure PublicKey where
  a : List (List ℕ)
  params : Params

/-- Key generation (src/lwe.rs `keygen`), with the sampled randomness made
explicit: the secret `t`, the uniform matrix `b_mat` and the error vector
`e` are arguments rather than draws from an `rng`. -/
def keygen (p : Params) (t : List ℕ) (b_mat : List (List ℕ)) (e : List ℤ) :
    SecretKey × PublicKey :=
  let n := p.n
  let m := p.m
  let q := p.q
  let s : List ℕ := 1 :: t.map (fun ti : ℕ => mod_q (-(ti : ℤ)) q)
  let b : List ℕ := (List.range m).map (fun i =>
    mod_q ((∑ j in Finset.range n,
      ((b_mat.getD i []).getD j 0 : ℤ) * (t.getD j 0 : ℤ)) + e.getD i 0) q)
  let a : List (List ℕ) := (List.range m).map (fun i =>
    b.getD i 0 :: (List.range n).map (fun j => (b_mat.getD i []).getD j 0))
  (⟨s, p⟩, ⟨a, p⟩)

/-- GSW encryption of one bit (src/gsw.rs `encrypt`), with the random binary
matrix `R` passed explicitly. -/
def encrypt (pk : PublicKey) (r : List (List ℕ)) (bit : ℕ) : List (List ℕ) :=
  let p := pk.params
  let n_expanded := p.n_expanded
  let m := p.m
  let q := p.q
  let ra : List (List ℕ) := (List.range n_expanded).map (fun i =>
    (List.range (p.n + 1)).map (fun j =>
      mod_q (∑ k in Finset.range m,
        ((r.getD i []).getD k 0 : ℤ) * ((pk.a.getD k []).getD j 0 : ℤ)) q))
  let bit_decomp_ra : List (List ℕ) := ra.map (fun row => bit_decomp row p)
  let sum : List (List ℕ) := (List.range n_expanded).map (fun i =>
    let row := bit_decomp_ra.getD i []
    row.set i (mod_q ((row.getD i 0 : ℤ) + (bit : ℤ)) q))
  flatten_matrix sum p

/-- GSW decryption (src/gsw.rs `decrypt`).  The `f64` quotient-and-round is
embedded as exact rational rounding (see the file header). -/
def decrypt (sk : SecretKey) (ct : List (List ℕ)) : ℕ :=
  let p := sk.params
  let q := p.q
  let l := p.l
  let n_expanded := p.n_expanded
  let v := powers_of_2 sk.s p
  let row_idx := l - 1
  let dotp : ℤ := ∑ j in Finset.range n_expanded,
    ((ct.getD row_idx []).getD j 0 : ℤ) * (v.getD j 0 : ℤ)
  let val : ℤ := (mod_q dotp q : ℕ)
  let scale : ℤ := (v.getD (l - 1) 0 : ℕ)
  if scale = 0 then 0
  else
    let msg : ℤ := round ((val : ℚ) / (scale : ℚ))
    (msg % 2).natAbs

/-- Decryption as the specification words it (spec section 4.6 and claim C1):
`d` is the signed-centered residue of the row-`(l-1)` dot product and the
result is `round(d / scale) mod 2`. -/
def decrypt_spec (sk : SecretKey) (ct : List (List ℕ)) : ℕ :=
  let p := sk.params
  let q := p.q
  let l := p.l
  let n_expanded := p.n_expanded
  let v := powers_of_2 sk.s p
  let dotp : ℤ := ∑ j in Finset.range n_expanded,
    ((ct.getD (l - 1) []).getD j 0 : ℤ) * (v.getD j 0 : ℤ)
  let d : ℤ := mod_q_centered dotp q
  let scale : ℤ := (v.getD (l - 1) 0 : ℕ)
  (round ((d : ℚ) / (scale : ℚ)) % 2).natAbs

/-- Homomorphic addition (src/gsw.rs `homomorphic_add`). -/
def homomorphic_add (p : Params) (ct1 ct2 : List (List ℕ)) : List (List ℕ) :=
  let q := p.q
  let n_expanded := p.n_expanded
  let sum := (List.range n_expanded).map (fun i =>
    (List.range n_expanded).map (fun j =>
      mod_q (((ct1.getD i []).getD j 0 : ℤ) + ((ct2.getD i []).getD j 0 : ℤ)) q))
  flatten_matrix sum p

/-- Homomorphic multiplication (src/gsw.rs `homomorphic_mult`). -/
def homomorphic_mult (p : Params) (ct1 ct2 : List (List ℕ)) : List (List ℕ) :=
  let q := p.q
  let n_expanded := p.n_expanded
  let prod := (List.range n_expanded).map (fun i =>
    (List.range n_expanded).map (fun j =>
      mod_q (∑ k in Finset.range n_expanded,
        ((ct1.getD i []).getD k 0 : ℤ) * ((ct2.getD k []).getD j 0 : ℤ)) q))
  flatten_matrix prod p

/-- Homomorphic NAND (src/gsw.rs `homomorphic_nand`). -/
def homomorphic_nand (p : Params) (ct1 ct2 : List (List ℕ)) : List (List ℕ) :=
  let q := p.q
  let n_expanded := p.n_expanded
  let prod := (List.range n_expanded).map (fun i =>
    (List.range n_expanded).map (fun j =>
      mod_q (∑ k in Finset.range n_expanded,
        ((ct1.getD i []).getD k 0 : ℤ) * ((ct2.getD k []).getD j 0 : ℤ)) q))
  let result := (List.range n_expanded).map (fun i =>
    (List.range n_expanded).map (fun j =>
      if i = j then mod_q (1 - ((prod.getD i []).getD j 0 : ℤ)) q
      else mod_q (-((prod.getD i []).getD j 0 : ℤ)) q))
  flatten_matrix result p

/-- Evaluation key (src/bootstrap.rs `EvaluationKey`). -/
structure EvaluationKey where
  encryptions : List (List (List ℕ))
  params : Params

/-- Homomorphic linear combination (src/bootstrap.rs
`homomorphic_linear_fixed`).  The Rust `assert_eq!` on the lengths is
carried as a hypothesis by the theorems; a `zip` realizes the paired
iteration. -/
def homomorphic_linear_fixed (p : Params) (cts : List (List (List ℕ)))
    (coefficients : List ℕ) : List (List ℕ) :=
  let n := p.n_expanded
  let q := p.q
  let result : Option (List (List ℕ)) :=
    (cts.zip coefficients).foldl (fun result pair =>
      let ct : List (List ℕ) := pair.1
      let coeff : ℕ := pair.2
      if coeff = 0 then result
      else
        let scaled := (List.range n).map (fun i =>
          (List.range n).map (fun j =>
            mod_q (((ct.getD i []).getD j 0 : ℤ) * (coeff : ℤ)) q))
        let scaled_flat := flatten_matrix scaled p
        match result with
        | none => some scaled_flat
        | some acc => some (homomorphic_add p acc scaled_flat)) none
  result.getD (List.replicate n (List.replicate n 0))

/-- The coefficient vector computed inside `bootstrap`
(src/bootstrap.rs lines 105-121), split out so the theorems can speak
about it directly. -/
def bootstrap_coefficients (p : Params) (c_row : List ℕ) : List ℕ :=
  let l := p.l
  let q := p.q
  (List.range p.n_expanded).map (fun i =>
    let block := i / l
    let k := i % l
    let coef : ℤ := (List.range l).foldl (fun coef j_bit =>
      let j := block * l + j_bit
      let term : ℤ := (mod_q ((c_row.getD j 0 : ℤ) * 2 ^ (k + j_bit)) q : ℕ)
      ((mod_q (coef + term) q : ℕ) : ℤ)) 0
    mod_q coef q)

/-- Bootstrapping (src/bootstrap.rs `bootstrap`). -/
def bootstrap (p : Params) (noisy_ct : List (List ℕ)) (ek : EvaluationKey) :
    List (List ℕ) :=
  let c_row := noisy_ct.getD (p.l - 1) []
  homomorphic_linear_fixed p ek.encryptions (bootstrap_coefficients p c_row)

/-- Shape and range invariant of claim C6: an `N x N` matrix whose entries
all lie in `{0, 1}`. -/
def is_binary_matrix (M : List (List ℕ)) (N : ℕ) : Prop :=
  M.length = N ∧ ∀ row ∈ M, row.length = N ∧ ∀ x ∈ row, x = 0 ∨ x = 1


lemma neg_lt_tmod (a : ℤ) (q : ℕ) (hq : 0 < q) : -(q : ℤ) < a.tmod q := by
  rcases a with m | m
  · have h0 : (0 : ℤ) ≤ (Int.ofNat m).tmod q :=
      Int.tmod_nonneg _ (by simp [Int.ofNat_eq_natCast])
    omega
  · show -(q : ℤ) < (Int.negSucc m).tmod (Int.ofNat q)
    have h2 : Nat.succ m % q < q := Nat.mod_lt _ hq
    simp only [Int.tmod, Int.ofNat_eq_natCast]
    omega

lemma tmod_lt_q (a : ℤ) (q : ℕ) (hq : 0 < q) : a.tmod q < (q : ℤ) :=
  Int.tmod_lt_of_pos a (by omega)

lemma dvd_sub_tmod (a : ℤ) (q : ℕ) : (q : ℤ) ∣ a - a.tmod q := by
  refine ⟨a.tdiv q, ?_⟩
  have h := Int.tmod_add_tdiv a (q : ℤ)
  linarith

lemma emod_eq_emod_tmod (val : ℤ) (q : ℕ) :
    val % (q : ℤ) = val.tmod (q : ℤ) % (q : ℤ) := by
  obtain ⟨c, hc⟩ := dvd_sub_tmod val q
  have hval : val = val.tmod q + (q : ℤ) * c := by linarith
  calc val % (q : ℤ) = (val.tmod q + (q : ℤ) * c) % (q : ℤ) := by rw [← hval]
  _ = val.tmod q % (q : ℤ) := Int.add_mul_emod_self_left ..

lemma mod_q_cast (val : ℤ) (q : ℕ) (hq : 0 < q) :
    ((mod_q val q : ℕ) : ℤ) = val % (q : ℤ) := by
  have h1 := neg_lt_tmod val q hq
  have h2 := tmod_lt_q val q hq
  have hme := emod_eq_emod_tmod val q
  rcases lt_or_le (val.tmod (q : ℤ)) 0 with h | h
  · have hv : mod_q val q = (val.tmod (q : ℤ) + q).toNat := by
      simp [mod_q, if_pos h]
    rw [hv, Int.toNat_of_nonneg (by omega), hme,
      show val.tmod (q : ℤ) % (q : ℤ) = (val.tmod (q : ℤ) + (q : ℤ) * 1) % (q : ℤ) from
        (Int.add_mul_emod_self_left ..).symm,
      Int.emod_eq_of_lt (by omega) (by omega)]
    ring
  · have hv : mod_q val q = (val.tmod (q : ℤ)).toNat := by
      simp [mod_q, if_neg (not_lt.mpr h)]
    rw [hv, Int.toNat_of_nonneg h, hme, Int.emod_eq_of_lt (by omega) (by omega)]

lemma mod_q_lt (val : ℤ) (q : ℕ) (hq : 0 < q) : mod_q val q < q := by
  have h := mod_q_cast val q hq
  have h2 : val % (q : ℤ) < q := Int.emod_lt_of_pos val (by omega)
  omega

lemma mod_q_dvd (val : ℤ) (q : ℕ) (hq : 0 < q) :
    (q : ℤ) ∣ val - (mod_q val q : ℕ) := by
  rw [mod_q_cast val q hq]
  exact Int.dvd_sub_of_emod_eq rfl

lemma mod_q_ofNat (v q : ℕ) (hq : 0 < q) : mod_q (v : ℤ) q = v % q := by
  have h := mod_q_cast (v : ℤ) q hq
  have : ((v : ℤ) % (q : ℤ)) = ((v % q : ℕ) : ℤ) := by push_cast; rfl
  omega

lemma mod_q_of_lt (v q : ℕ) (hv : v < q) : mod_q (v : ℤ) q = v := by
  rw [mod_q_ofNat v q (by omega), Nat.mod_eq_of_lt hv]

lemma q_eq_two_mul (q l : ℕ) (hq : q = 2 ^ l) (hl : 1 ≤ l) :
    (q : ℤ) = 2 * 2 ^ (l - 1) := by
  subst hq
  push_cast
  rw [← pow_succ']
  congr 1
  omega

lemma mod_q_centered_facts (val : ℤ) (q l : ℕ) (hq : q = 2 ^ l) (hl : 1 ≤ l) :
    -((2 : ℤ) ^ (l - 1)) < mod_q_centered val q ∧
      mod_q_centered val q ≤ 2 ^ (l - 1) ∧
      (q : ℤ) ∣ val - mod_q_centered val q := by
  have hq0 : 0 < q := by subst hq; positivity
  have h1 := neg_lt_tmod val q hq0
  have h2 := tmod_lt_q val q hq0
  have hdvd := dvd_sub_tmod val q
  have hE := q_eq_two_mul q l hq hl
  have hEpos : (0 : ℤ) < 2 ^ (l - 1) := by positivity
  have htd : (q : ℤ).tdiv 2 = 2 ^ (l - 1) := by
    rw [hE]; exact Int.mul_tdiv_cancel_left _ (by norm_num)
  have htd2 : (-(q : ℤ)).tdiv 2 = -(2 ^ (l - 1)) := by
    rw [hE, show -(2 * (2 : ℤ) ^ (l - 1)) = 2 * -(2 ^ (l - 1)) by ring]
    exact Int.mul_tdiv_cancel_left _ (by norm_num)
  have hv : mod_q_centered val q =
      if val.tmod (q : ℤ) > (q : ℤ).tdiv 2 then val.tmod (q : ℤ) - q
      else if val.tmod (q : ℤ) ≤ (-(q : ℤ)).tdiv 2 then val.tmod (q : ℤ) + q
      else val.tmod (q : ℤ) := rfl
  rw [hv, htd, htd2]
  obtain ⟨c, hc⟩ := hdvd
  split_ifs with ha hb
  · refine ⟨by omega, by omega, ⟨c + 1, by linarith⟩⟩
  · refine ⟨by omega, by omega, ⟨c - 1, by linarith⟩⟩
  · exact ⟨by omega, by omega, ⟨c, hc⟩⟩

lemma mod_q_centered_unique (val x : ℤ) (q l : ℕ) (hq : q = 2 ^ l) (hl : 1 ≤ l)
    (hdvd : (q : ℤ) ∣ val - x) (hlo : -((2 : ℤ) ^ (l - 1)) < x)
    (hhi : x ≤ 2 ^ (l - 1)) : mod_q_centered val q = x := by
  obtain ⟨h1, h2, h3⟩ := mod_q_centered_facts val q l hq hl
  have hE := q_eq_two_mul q l hq hl
  obtain ⟨c, hc⟩ : (q : ℤ) ∣ mod_q_centered val q - x := by
    have := dvd_sub hdvd h3
    rw [show val - x - (val - mod_q_centered val q) = mod_q_centered val q - x by ring] at this
    exact this
  have hc0 : c = 0 := by
    rcases lt_trichotomy c 0 with h | h | h
    · have : (q : ℤ) * c ≤ (q : ℤ) * (-1) :=
        mul_le_mul_of_nonneg_left (by omega) (by omega)
      omega
    · exact h
    · have : (q : ℤ) * 1 ≤ (q : ℤ) * c :=
        mul_le_mul_of_nonneg_left (by omega) (by omega)
      omega
  rw [hc0] at hc
  omega



/-- C7: `mod_q` maps any signed integer into `[0, q)` and is congruent to its
input mod `q`, including for negative inputs; `mod_q_centered` maps into
`(-q/2, q/2]` (for `q = 2^l` this interval is `(-2^(l-1), 2^(l-1)]`) and is
congruent to its input mod `q`. -/
theorem mod_q_and_centered_spec (v : ℤ) (q l : ℕ) (hq : q = 2 ^ l) (hl : 1 ≤ l) :
    mod_q v q < q ∧ ((mod_q v q : ℕ) : ℤ) ≡ v [ZMOD (q : ℤ)] ∧
      -((2 : ℤ) ^ (l - 1)) < mod_q_centered v q ∧
      mod_q_centered v q ≤ 2 ^ (l - 1) ∧
      mod_q_centered v q ≡ v [ZMOD (q : ℤ)] := by
  have hq0 : 0 < q := by subst hq; positivity
  obtain ⟨h1, h2, h3⟩ := mod_q_centered_facts v q l hq hl
  refine ⟨mod_q_lt v q hq0, ?_, h1, h2, ?_⟩
  · exact Int.modEq_iff_dvd.mpr (mod_q_dvd v q hq0)
  · exact Int.modEq_iff_dvd.mpr h3

/-- C7 witness at `v = -5`, `q = 4`. -/
theorem mod_q_and_centered_spec_witness :
    mod_q (-5) 4 < 4 ∧ ((mod_q (-5) 4 : ℕ) : ℤ) ≡ -5 [ZMOD (4 : ℤ)] ∧
      -((2 : ℤ) ^ (2 - 1)) < mod_q_centered (-5) 4 ∧
      mod_q_centered (-5) 4 ≤ 2 ^ (2 - 1) ∧
      mod_q_centered (-5) 4 ≡ -5 [ZMOD (4 : ℤ)] :=
  mod_q_and_centered_spec (-5) 4 2 (by norm_num) (by norm_num)

/-- C8: the Toy / Low / Medium presets are bit-exactly
`(q, n, m, B) = (2^20, 8, 256, 1)`, `(2^24, 24, 384, 2)`, `(2^26, 48, 768, 4)`,
and the derived fields satisfy `q = 2^l` and `N = (n+1)*l` with
`l = 20, 24, 26`. -/
theorem params_presets :
    Params.new .toy = ⟨2 ^ 20, 8, 20, 180, 256, 1⟩ ∧
      Params.new .low = ⟨2 ^ 24, 24, 24, 600, 384, 2⟩ ∧
      Params.new .medium = ⟨2 ^ 26, 48, 26, 1274, 768, 4⟩ ∧
      (∀ level, (Params.new level).q = 2 ^ (Params.new level).l ∧
        (Params.new level).n_expanded =
          ((Params.new level).n + 1) * (Params.new level).l) := by
  have hlog : ∀ k : ℕ, Nat.log2 (2 ^ k) = k := fun k => by
    rw [Nat.log2_eq_log_two, Nat.log_pow (by norm_num)]
  have ht : Params.new .toy = ⟨2 ^ 20, 8, 20, 180, 256, 1⟩ := by
    simp only [Params.new, Params.with_derived, Nat.shiftLeft_eq, one_mul, hlog]
  have hlo : Params.new .low = ⟨2 ^ 24, 24, 24, 600, 384, 2⟩ := by
    simp only [Params.new, Params.with_derived, Nat.shiftLeft_eq, one_mul, hlog]
  have hm : Params.new .medium = ⟨2 ^ 26, 48, 26, 1274, 768, 4⟩ := by
    simp only [Params.new, Params.with_derived, Nat.shiftLeft_eq, one_mul, hlog]
  refine ⟨ht, hlo, hm, fun level => ?_⟩
  cases level
  · rw [ht]; exact ⟨rfl, rfl⟩
  · rw [hlo]; exact ⟨rfl, rfl⟩
  · rw [hm]; exact ⟨rfl, rfl⟩



lemma sum_bits (x l : ℕ) :
    ∑ i in Finset.range l, ((x >>> i) &&& 1) * 2 ^ i = x % 2 ^ l := by
  induction l with
  | zero => simp [Nat.mod_one]
  | succ l ih =>
    rw [Finset.sum_range_succ, ih, Nat.mod_pow_succ, Nat.shiftRight_eq_div_pow,
      Nat.and_one_is_mod]
    ring

lemma sum_range_add_split {M : Type} [AddCommMonoid M] (m n : ℕ) (f : ℕ → M) :
    ∑ i in Finset.range (m + n), f i =
      (∑ i in Finset.range m, f i) + ∑ i in Finset.range n, f (m + i) := by
  calc ∑ i in Finset.range (m + n), f i
      = ∑ i in Finset.Ico 0 (m + n), f i := by rw [Finset.range_eq_Ico]
    _ = (∑ i in Finset.Ico 0 m, f i) + ∑ i in Finset.Ico m (m + n), f i :=
      (Finset.sum_Ico_consecutive f (Nat.zero_le m) (Nat.le_add_right m n)).symm
    _ = (∑ i in Finset.range m, f i) + ∑ i in Finset.range n, f (m + i) := by
      rw [← Finset.range_eq_Ico, Finset.sum_Ico_eq_sum_range]
      simp

lemma sum_range_mul {M : Type} [AddCommMonoid M] (k l : ℕ) (f : ℕ → M) :
    ∑ i in Finset.range (k * l), f i =
      ∑ j in Finset.range k, ∑ r in Finset.range l, f (j * l + r) := by
  induction k with
  | zero => simp
  | succ k ih =>
    rw [Nat.succ_mul, sum_range_add_split, ih, Finset.sum_range_succ]

lemma getD_map_range {α : Type} (f : ℕ → α) (n i : ℕ) (d : α) (h : i < n) :
    (((List.range n).map f).getD i d) = f i := by
  rw [List.getD_eq_getElem _ _ (by simpa using h), List.getElem_map, List.getElem_range]

lemma flatMap_length (v : List ℕ) (g : ℕ → List ℕ) (l : ℕ)
    (hg : ∀ x, (g x).length = l) : (v.flatMap g).length = v.length * l := by
  induction v with
  | nil => simp
  | cons a v ih =>
    simp [List.flatMap_cons, ih, hg a, Nat.succ_mul, Nat.add_comm]

lemma flatMap_getD (v : List ℕ) (g : ℕ → List ℕ) (l : ℕ)
    (hg : ∀ x, (g x).length = l) (j r : ℕ) (hj : j < v.length) (hr : r < l) :
    (v.flatMap g).getD (j * l + r) 0 = (g (v.getD j 0)).getD r 0 := by
  induction v generalizing j with
  | nil => simp at hj
  | cons a v ih =>
    rw [List.flatMap_cons]
    cases j with
    | zero =>
      rw [Nat.zero_mul, Nat.zero_add, List.getD_append _ _ _ _ (by rw [hg a]; exact hr)]
      rfl
    | succ j =>
      rw [List.getD_append_right _ _ _ _ (by rw [hg a]; nlinarith [Nat.succ_mul j l]),
        hg a, show (j + 1) * l + r - l = j * l + r by rw [Nat.succ_mul]; omega]
      exact ih j (by simpa using hj)

lemma dot_eq_sum (a b : List ℕ) (n : ℕ) (ha : a.length = n) (hb : n ≤ b.length) :
    dot a b = ∑ i in Finset.range n, a.getD i 0 * b.getD i 0 := by
  induction a generalizing b n with
  | nil => simp at ha; subst ha; simp [dot]
  | cons x a ih =>
    cases b with
    | nil =>
      have hn : n = 0 := by simpa using hb
      subst hn
      simp [dot]
    | cons y b =>
      cases n with
      | zero => simp at ha
      | succ n =>
        rw [show dot (x :: a) (y :: b) = x * y + dot a b from rfl,
          Finset.sum_range_succ' _ n]
        simp only [List.getD_cons_succ, List.getD_cons_zero]
        rw [ih b n (by simpa using ha) (by simpa using hb)]
        omega



lemma bit_decomp_length (v : List ℕ) (p : Params) :
    (bit_decomp v p).length = v.length * p.l :=
  flatMap_length v _ p.l (fun x => by simp)

lemma bit_decomp_getD (v : List ℕ) (p : Params) (j r : ℕ)
    (hj : j < v.length) (hr : r < p.l) :
    (bit_decomp v p).getD (j * p.l + r) 0 = (v.getD j 0 >>> r) &&& 1 := by
  rw [bit_decomp, flatMap_getD v _ p.l (fun x => by simp) j r hj hr,
    getD_map_range _ _ _ _ hr]

lemma powers_of_2_length (b : List ℕ) (p : Params) :
    (powers_of_2 b p).length = b.length * p.l :=
  flatMap_length b _ p.l (fun x => by simp)

lemma powers_of_2_getD (b : List ℕ) (p : Params) (j r : ℕ)
    (hj : j < b.length) (hr : r < p.l) :
    (powers_of_2 b p).getD (j * p.l + r) 0 = mod_q ((b.getD j 0 : ℤ) * 2 ^ r) p.q := by
  rw [powers_of_2, flatMap_getD b _ p.l (fun x => by simp) j r hj hr,
    getD_map_range _ _ _ _ hr]

lemma bit_decomp_inverse_length (bits : List ℕ) (p : Params) :
    (bit_decomp_inverse bits p).length = bits.length / p.l := by
  simp [bit_decomp_inverse]

lemma bit_decomp_inverse_getD (bits : List ℕ) (p : Params) (j : ℕ)
    (hj : j < bits.length / p.l) :
    (bit_decomp_inverse bits p).getD j 0 =
      mod_q (∑ i in Finset.range p.l, (bits.getD (j * p.l + i) 0 : ℤ) * 2 ^ i) p.q := by
  simp only [bit_decomp_inverse]
  exact getD_map_range _ _ _ _ hj

lemma bit_decomp_entry_le_one (v : List ℕ) (p : Params) (x : ℕ)
    (hx : x ∈ bit_decomp v p) : x ≤ 1 := by
  simp only [bit_decomp, List.mem_flatMap, List.mem_map] at hx
  obtain ⟨vi, -, i, -, rfl⟩ := hx
  rw [Nat.and_one_is_mod]
  have := Nat.mod_lt (vi >>> i) (show 0 < 2 by norm_num)
  omega

lemma mod_q_zmod (x : ℤ) (q : ℕ) (hq : 0 < q) :
    ((mod_q x q : ℕ) : ZMod q) = (x : ZMod q) := by
  have h := mod_q_cast x q hq
  calc ((mod_q x q : ℕ) : ZMod q) = (((mod_q x q : ℕ) : ℤ) : ZMod q) := by push_cast; rfl
  _ = ((x % (q : ℤ) : ℤ) : ZMod q) := by rw [h]
  _ = (x : ZMod q) := ZMod.intCast_mod x q

lemma zmod_block (x y l q : ℕ) (hq : q = 2 ^ l) (hx : x < q) :
    (((∑ r in Finset.range l, ((x >>> r) &&& 1) * mod_q ((y : ℤ) * 2 ^ r) q : ℕ)) : ZMod q) =
      ((x * y : ℕ) : ZMod q) := by
  have hq0 : 0 < q := by rw [hq]; positivity
  push_cast
  calc ∑ r in Finset.range l,
        (((x >>> r) &&& 1 : ℕ) : ZMod q) * ((mod_q ((y : ℤ) * 2 ^ r) q : ℕ) : ZMod q)
      = ∑ r in Finset.range l,
        (((x >>> r) &&& 1 : ℕ) : ZMod q) * ((y : ZMod q) * 2 ^ r) := by
        refine Finset.sum_congr rfl fun r _ => ?_
        rw [mod_q_zmod _ q hq0]
        push_cast
        ring
    _ = (y : ZMod q) * ∑ r in Finset.range l, (((x >>> r) &&& 1 : ℕ) : ZMod q) * 2 ^ r := by
        rw [Finset.mul_sum]
        refine Finset.sum_congr rfl fun r _ => by ring
    _ = (y : ZMod q) *
        ((∑ r in Finset.range l, ((x >>> r) &&& 1) * 2 ^ r : ℕ) : ZMod q) := by
        push_cast
        ring
    _ = (y : ZMod q) * ((x : ZMod q)) := by
        rw [sum_bits x l, ← hq, Nat.mod_eq_of_lt hx]
    _ = (x : ZMod q) * (y : ZMod q) := by ring

lemma dot_bit_decomp_powers_zmod (v s : List ℕ) (p : Params)
    (hq : p.q = 2 ^ p.l) (hlen : v.length = s.length)
    (hv : ∀ x ∈ v, x < p.q) :
    ((dot (bit_decomp v p) (powers_of_2 s p) : ℕ) : ZMod p.q) =
      ((dot v s : ℕ) : ZMod p.q) := by
  have h1 : dot (bit_decomp v p) (powers_of_2 s p) =
      ∑ i in Finset.range (v.length * p.l),
        (bit_decomp v p).getD i 0 * (powers_of_2 s p).getD i 0 :=
    dot_eq_sum _ _ _ (bit_decomp_length v p)
      (by rw [powers_of_2_length, hlen])
  have h2 : dot v s = ∑ i in Finset.range v.length, v.getD i 0 * s.getD i 0 :=
    dot_eq_sum _ _ _ rfl (by omega)
  rw [h1, h2, sum_range_mul]
  have hblocks : ∀ j ∈ Finset.range v.length,
      (∑ r in Finset.range p.l,
        (bit_decomp v p).getD (j * p.l + r) 0 * (powers_of_2 s p).getD (j * p.l + r) 0)
      = ∑ r in Finset.range p.l,
        ((v.getD j 0 >>> r) &&& 1) * mod_q ((s.getD j 0 : ℤ) * 2 ^ r) p.q := by
    intro j hj
    rw [Finset.mem_range] at hj
    refine Finset.sum_congr rfl fun r hr => ?_
    rw [Finset.mem_range] at hr
    rw [bit_decomp_getD v p j r hj hr, powers_of_2_getD s p j r (hlen ▸ hj) hr]
  rw [Finset.sum_congr rfl hblocks, Nat.cast_sum, Nat.cast_sum]
  refine Finset.sum_congr rfl fun j hj => ?_
  rw [Finset.mem_range] at hj
  have hxq : v.getD j 0 < p.q := by
    rw [List.getD_eq_getElem _ _ hj]
    exact hv _ (List.getElem_mem _)
  exact zmod_block (v.getD j 0) (s.getD j 0) p.l p.q hq hxq


lemma sum_bits_le (f : ℕ → ℕ) (l : ℕ) (hf : ∀ i < l, f i ≤ 1) :
    ∑ i in Finset.range l, f i * 2 ^ i < 2 ^ l := by
  induction l with
  | zero => simp
  | succ l ih =>
    rw [Finset.sum_range_succ, pow_succ]
    have h1 := ih (fun i hi => hf i (by omega))
    have h2 : f l * 2 ^ l ≤ 2 ^ l := by
      calc f l * 2 ^ l ≤ 1 * 2 ^ l := Nat.mul_le_mul_right _ (hf l (by omega))
      _ = 2 ^ l := by ring
    omega

lemma bit_of_sum (f : ℕ → ℕ) (l r : ℕ) (hf : ∀ i < l, f i ≤ 1) (hr : r < l) :
    (∑ i in Finset.range l, f i * 2 ^ i) / 2 ^ r % 2 = f r := by
  have hsplit : l = (r + 1) + (l - r - 1) := by omega
  rw [hsplit, sum_range_add_split, Finset.sum_range_succ]
  have hB : ∑ i in Finset.range (l - r - 1), f (r + 1 + i) * 2 ^ (r + 1 + i)
      = 2 ^ r * (2 * ∑ i in Finset.range (l - r - 1), f (r + 1 + i) * 2 ^ i) := by
    calc ∑ i in Finset.range (l - r - 1), f (r + 1 + i) * 2 ^ (r + 1 + i)
        = ∑ i in Finset.range (l - r - 1), 2 ^ r * (2 * (f (r + 1 + i) * 2 ^ i)) := by
          refine Finset.sum_congr rfl fun i _ => ?_
          rw [show r + 1 + i = r + (1 + i) by ring, pow_add, pow_add, pow_one]
          ring
      _ = 2 ^ r * (2 * ∑ i in Finset.range (l - r - 1), f (r + 1 + i) * 2 ^ i) := by
          rw [← Finset.mul_sum, ← Finset.mul_sum]
  have hAlt : ∑ i in Finset.range r, f i * 2 ^ i < 2 ^ r :=
    sum_bits_le f r (fun i hi => hf i (by omega))
  have hfr : f r ≤ 1 := hf r hr
  rw [hB, show (∑ i in Finset.range r, f i * 2 ^ i) + f r * 2 ^ r +
      2 ^ r * (2 * ∑ i in Finset.range (l - r - 1), f (r + 1 + i) * 2 ^ i)
      = (∑ i in Finset.range r, f i * 2 ^ i) +
        2 ^ r * (f r + 2 * ∑ i in Finset.range (l - r - 1), f (r + 1 + i) * 2 ^ i) by ring,
    Nat.add_mul_div_left _ _ (pow_pos (by norm_num) r), Nat.div_eq_of_lt hAlt,
    Nat.zero_add]
  omega

lemma flatten_length (w : List ℕ) (p : Params) :
    (flatten w p).length = w.length / p.l * p.l := by
  rw [flatten, bit_decomp_length, bit_decomp_inverse_length]

lemma flatten_entry_le_one (w : List ℕ) (p : Params) (x : ℕ)
    (hx : x ∈ flatten w p) : x ≤ 1 :=
  bit_decomp_entry_le_one _ p x hx

lemma flatten_getD (w : List ℕ) (p : Params) (j r : ℕ)
    (hj : j < w.length / p.l) (hr : r < p.l) :
    (flatten w p).getD (j * p.l + r) 0 =
      ((bit_decomp_inverse w p).getD j 0 >>> r) &&& 1 := by
  rw [flatten, bit_decomp_getD _ p j r (by rw [bit_decomp_inverse_length]; exact hj) hr]

lemma flatten_of_bits (w : List ℕ) (p : Params) (k : ℕ) (hq : p.q = 2 ^ p.l)
    (hl : 1 ≤ p.l) (hw : w.length = k * p.l) (hbits : ∀ x ∈ w, x ≤ 1) :
    flatten w p = w := by
  have hl0 : 0 < p.l := by omega
  have hk : w.length / p.l = k := by rw [hw]; exact Nat.mul_div_cancel k hl0
  apply List.ext_getElem
  · rw [flatten_length, hk, ← hw]
  intro i h1 h2
  have e1 : (flatten w p)[i] = (flatten w p).getD i 0 := (List.getD_eq_getElem _ _ h1).symm
  have e2 : w[i] = w.getD i 0 := (List.getD_eq_getElem _ _ h2).symm
  rw [e1, e2]
  have hi : i < k * p.l := by rw [← hw]; exact h2
  have hj : i / p.l < k := (Nat.div_lt_iff_lt_mul hl0).mpr hi
  have hr : i % p.l < p.l := Nat.mod_lt _ hl0
  have hieq : i / p.l * p.l + i % p.l = i := by
    rw [Nat.mul_comm]
    exact Nat.div_add_mod i p.l
  rw [← hieq, flatten_getD w p _ _ (hk ▸ hj) hr,
    bit_decomp_inverse_getD w p _ (hk ▸ hj)]
  have hcast : (∑ t in Finset.range p.l, (w.getD (i / p.l * p.l + t) 0 : ℤ) * 2 ^ t)
      = ((∑ t in Finset.range p.l, w.getD (i / p.l * p.l + t) 0 * 2 ^ t : ℕ) : ℤ) := by
    push_cast
    rfl
  have hfle : ∀ t < p.l, w.getD (i / p.l * p.l + t) 0 ≤ 1 := by
    intro t ht
    have hlt : i / p.l * p.l + t < w.length := by
      rw [hw]
      calc i / p.l * p.l + t < i / p.l * p.l + p.l := by omega
      _ = (i / p.l + 1) * p.l := by ring
      _ ≤ k * p.l := Nat.mul_le_mul_right _ (by omega)
    rw [List.getD_eq_getElem _ _ hlt]
    exact hbits _ (List.getElem_mem _)
  rw [hcast, mod_q_of_lt _ _ (by
    rw [hq]
    exact sum_bits_le _ p.l hfle),
    Nat.shiftRight_eq_div_pow, Nat.and_one_is_mod]
  exact bit_of_sum _ p.l (i % p.l) hfle hr

lemma mem_bit_decomp_inverse_lt (w : List ℕ) (p : Params) (hq0 : 0 < p.q) (x : ℕ)
    (hx : x ∈ bit_decomp_inverse w p) : x < p.q := by
  simp only [bit_decomp_inverse, List.mem_map] at hx
  obtain ⟨j, -, rfl⟩ := hx
  exact mod_q_lt _ _ hq0


/-- C2: the gadget identity.  For `q = 2^l` and same-length `Z_q`-vectors
`v` and `s`, `⟨BitDecomp(v), PowersOf2(s)⟩ ≡ ⟨v, s⟩ (mod q)`. -/
theorem gadget_identity (v s : List ℕ) (p : Params) (hq : p.q = 2 ^ p.l)
    (hlen : v.length = s.length) (hv : ∀ x ∈ v, x < p.q) :
    dot (bit_decomp v p) (powers_of_2 s p) ≡ dot v s [MOD p.q] :=
  (ZMod.natCast_eq_natCast_iff _ _ _).mp (dot_bit_decomp_powers_zmod v s p hq hlen hv)

/-- C2 witness: the gadget identity at `q = 4`, `l = 2`, `v = [3,1]`, `s = [2,3]`. -/
theorem gadget_identity_witness :
    dot (bit_decomp [3, 1] ⟨4, 0, 2, 2, 1, 1⟩) (powers_of_2 [2, 3] ⟨4, 0, 2, 2, 1, 1⟩) ≡
      dot [3, 1] [2, 3] [MOD (Params.mk 4 0 2 2 1 1).q] :=
  gadget_identity [3, 1] [2, 3] ⟨4, 0, 2, 2, 1, 1⟩ (by decide) (by decide) (by decide)

lemma dot_bdi_powers (w b : List ℕ) (p : Params) (hq : p.q = 2 ^ p.l) (hl : 1 ≤ p.l)
    (hw : w.length = b.length * p.l) :
    ((dot (bit_decomp_inverse w p) b : ℕ) : ZMod p.q) =
      ((dot w (powers_of_2 b p) : ℕ) : ZMod p.q) := by
  have hq0 : 0 < p.q := by rw [hq]; positivity
  have hk : w.length / p.l = b.length := by
    rw [hw]
    exact Nat.mul_div_cancel _ (by omega)
  have h1 : dot (bit_decomp_inverse w p) b =
      ∑ j in Finset.range b.length, (bit_decomp_inverse w p).getD j 0 * b.getD j 0 :=
    dot_eq_sum _ _ _ (by rw [bit_decomp_inverse_length, hk]) le_rfl
  have h2 : dot w (powers_of_2 b p) =
      ∑ i in Finset.range (b.length * p.l), w.getD i 0 * (powers_of_2 b p).getD i 0 :=
    dot_eq_sum _ _ _ hw (by rw [powers_of_2_length])
  rw [h1, h2, sum_range_mul, Nat.cast_sum, Nat.cast_sum]
  refine Finset.sum_congr rfl fun j hj => ?_
  rw [Finset.mem_range] at hj
  have hR : ((∑ r in Finset.range p.l,
        w.getD (j * p.l + r) 0 * (powers_of_2 b p).getD (j * p.l + r) 0 : ℕ) : ZMod p.q)
      = ∑ r in Finset.range p.l,
        (w.getD (j * p.l + r) 0 : ZMod p.q) * ((b.getD j 0 : ZMod p.q) * 2 ^ r) := by
    rw [Nat.cast_sum]
    refine Finset.sum_congr rfl fun r hr => ?_
    rw [Finset.mem_range] at hr
    rw [Nat.cast_mul, powers_of_2_getD b p j r hj hr, mod_q_zmod _ _ hq0]
    push_cast
    ring
  have hL : (((bit_decomp_inverse w p).getD j 0 * b.getD j 0 : ℕ) : ZMod p.q)
      = ∑ r in Finset.range p.l,
        (w.getD (j * p.l + r) 0 : ZMod p.q) * ((b.getD j 0 : ZMod p.q) * 2 ^ r) := by
    rw [Nat.cast_mul, bit_decomp_inverse_getD w p j (by rw [hk]; exact hj),
      mod_q_zmod _ _ hq0]
    push_cast
    rw [Finset.sum_mul]
    exact Finset.sum_congr rfl fun r hr => by ring
  rw [hL, hR]

/-- C9: Flatten preserves the decryption linear form: for `q = 2^l`, a vector
`w` of length `k*l` with entries in `[0, q)` and a `Z_q`-vector `b` of length
`k`, `⟨Flatten(w), PowersOf2(b)⟩ ≡ ⟨w, PowersOf2(b)⟩ (mod q)`. -/
theorem flatten_preserves_linear_form (w b : List ℕ) (p : Params)
    (hq : p.q = 2 ^ p.l) (hl : 1 ≤ p.l) (hw : w.length = b.length * p.l)
    (hwq : ∀ x ∈ w, x < p.q) :
    dot (flatten w p) (powers_of_2 b p) ≡ dot w (powers_of_2 b p) [MOD p.q] := by
  have hq0 : 0 < p.q := by rw [hq]; positivity
  have step1 : dot (flatten w p) (powers_of_2 b p) ≡
      dot (bit_decomp_inverse w p) b [MOD p.q] := by
    apply (ZMod.natCast_eq_natCast_iff _ _ _).mp
    apply dot_bit_decomp_powers_zmod _ _ p hq
    · rw [bit_decomp_inverse_length, hw]
      exact Nat.mul_div_cancel _ (by omega)
    · exact fun x hx => mem_bit_decomp_inverse_lt w p hq0 x hx
  have step2 : dot (bit_decomp_inverse w p) b ≡ dot w (powers_of_2 b p) [MOD p.q] :=
    (ZMod.natCast_eq_natCast_iff _ _ _).mp (dot_bdi_powers w b p hq hl hw)
  exact step1.trans step2

/-- C9 witness at `q = 4`, `l = 2`, `w = [3,2,1,0]`, `b = [2,3]`. -/
theorem flatten_preserves_linear_form_witness :
    dot (flatten [3, 2, 1, 0] ⟨4, 0, 2, 2, 1, 1⟩) (powers_of_2 [2, 3] ⟨4, 0, 2, 2, 1, 1⟩) ≡
      dot [3, 2, 1, 0] (powers_of_2 [2, 3] ⟨4, 0, 2, 2, 1, 1⟩)
        [MOD (Params.mk 4 0 2 2 1 1).q] :=
  flatten_preserves_linear_form [3, 2, 1, 0] [2, 3] ⟨4, 0, 2, 2, 1, 1⟩
    (by decide) (by decide) (by decide) (by decide)

/-- C5: Flatten equals `BitDecomp ∘ BitDecompInverse` on every input, is the
identity on `{0,1}`-valued inputs of length `k*l`, and is idempotent on
every input. -/
theorem flatten_behavior (p : Params) (hq : p.q = 2 ^ p.l) (hl : 1 ≤ p.l) :
    (∀ w : List ℕ, flatten w p = bit_decomp (bit_decomp_inverse w p) p) ∧
      (∀ (w : List ℕ) (k : ℕ), w.length = k * p.l → (∀ x ∈ w, x = 0 ∨ x = 1) →
        flatten w p = w) ∧
      (∀ w : List ℕ, flatten (flatten w p) p = flatten w p) := by
  refine ⟨fun w => rfl, ?_, ?_⟩
  · intro w k hw hb
    exact flatten_of_bits w p k hq hl hw (fun x hx => by rcases hb x hx with h | h <;> omega)
  · intro w
    exact flatten_of_bits (flatten w p) p (w.length / p.l) hq hl (flatten_length w p)
      (fun x hx => flatten_entry_le_one w p x hx)

/-- C5 witness at `q = 4`, `l = 2`, `w = [3,1,0,1]` (and the binary input
`[1,0,0,1]` for the identity part). -/
theorem flatten_behavior_witness :
    flatten [3, 1, 0, 1] ⟨4, 0, 2, 2, 1, 1⟩ =
        bit_decomp (bit_decomp_inverse [3, 1, 0, 1] ⟨4, 0, 2, 2, 1, 1⟩) ⟨4, 0, 2, 2, 1, 1⟩ ∧
      flatten [1, 0, 0, 1] ⟨4, 0, 2, 2, 1, 1⟩ = [1, 0, 0, 1] ∧
      flatten (flatten [3, 1, 0, 1] ⟨4, 0, 2, 2, 1, 1⟩) ⟨4, 0, 2, 2, 1, 1⟩ =
        flatten [3, 1, 0, 1] ⟨4, 0, 2, 2, 1, 1⟩ := by
  obtain ⟨h1, h2, h3⟩ := flatten_behavior ⟨4, 0, 2, 2, 1, 1⟩ (by decide) (by decide)
  exact ⟨h1 [3, 1, 0, 1], h2 [1, 0, 0, 1] 2 (by decide) (by decide), h3 [3, 1, 0, 1]⟩



lemma powers_getD_head (s : List ℕ) (p : Params) (r : ℕ) (hr : r < p.l)
    (hs : s ≠ []) :
    (powers_of_2 s p).getD r 0 = mod_q ((s.getD 0 0 : ℤ) * 2 ^ r) p.q := by
  have h0 : 0 < s.length := by cases s with
    | nil => exact absurd rfl hs
    | cons a t => simp
  have := powers_of_2_getD s p 0 r h0 hr
  simpa using this

lemma scale_eq (s : List ℕ) (p : Params) (hq : p.q = 2 ^ p.l) (hl : 1 ≤ p.l)
    (hs : s ≠ []) (hs0 : s.getD 0 0 = 1) :
    (powers_of_2 s p).getD (p.l - 1) 0 = 2 ^ (p.l - 1) := by
  rw [powers_getD_head s p (p.l - 1) (by omega) hs, hs0]
  have hcast : ((1 : ℕ) : ℤ) * 2 ^ (p.l - 1) = ((2 ^ (p.l - 1) : ℕ) : ℤ) := by
    push_cast
    ring
  rw [hcast, mod_q_of_lt _ _ (by
    rw [hq]
    exact Nat.pow_lt_pow_right (by norm_num) (by omega))]

/-- C1: `decrypt` computes `v = PowersOf2(s)`, takes the row-`(l-1)` dot
product with `v`, and returns `round(d / scale) mod 2` where `d` is the
signed-centered residue of that dot product and
`scale = v[l-1] = 2^(l-1) mod q`; that is, `decrypt` agrees with the
specification's description `decrypt_spec`, and `scale` is `2^(l-1) mod q`. -/
theorem decrypt_follows_spec (sk : SecretKey) (ct : List (List ℕ))
    (hq : sk.params.q = 2 ^ sk.params.l) (hl : 1 ≤ sk.params.l)
    (hs : sk.s ≠ []) (hs0 : sk.s.getD 0 0 = 1) :
    decrypt sk ct = decrypt_spec sk ct ∧
      (powers_of_2 sk.s sk.params).getD (sk.params.l - 1) 0 =
        2 ^ (sk.params.l - 1) % sk.params.q := by
  have hq0 : 0 < sk.params.q := by rw [hq]; positivity
  have hscale := scale_eq sk.s sk.params hq hl hs hs0
  have hpow_lt : 2 ^ (sk.params.l - 1) < sk.params.q := by
    rw [hq]
    exact Nat.pow_lt_pow_right (by norm_num) (by omega)
  refine ⟨?_, by rw [hscale, Nat.mod_eq_of_lt hpow_lt]⟩
  set D : ℤ := ∑ j in Finset.range sk.params.n_expanded,
    ((ct.getD (sk.params.l - 1) []).getD j 0 : ℤ) *
      ((powers_of_2 sk.s sk.params).getD j 0 : ℤ) with hD
  obtain ⟨hmc1, hmc2, hmc3⟩ := mod_q_centered_facts D sk.params.q sk.params.l hq hl
  have hvcast := mod_q_cast D sk.params.q hq0
  have hval_lt : mod_q D sk.params.q < sk.params.q := mod_q_lt D sk.params.q hq0
  have hE := q_eq_two_mul sk.params.q sk.params.l hq hl
  obtain ⟨c, hc⟩ : (sk.params.q : ℤ) ∣
      ((mod_q D sk.params.q : ℕ) : ℤ) - mod_q_centered D sk.params.q := by
    have h1 := mod_q_dvd D sk.params.q hq0
    have h2 := dvd_sub hmc3 h1
    rw [show D - mod_q_centered D sk.params.q - (D - ((mod_q D sk.params.q : ℕ) : ℤ))
        = ((mod_q D sk.params.q : ℕ) : ℤ) - mod_q_centered D sk.params.q by ring] at h2
    exact h2
  have hcases : c = 0 ∨ c = 1 := by
    rcases lt_trichotomy c 0 with h | h | h
    · have hle : (sk.params.q : ℤ) * c ≤ (sk.params.q : ℤ) * (-1) :=
        mul_le_mul_of_nonneg_left (by omega) (by omega)
      omega
    · exact Or.inl h
    · rcases lt_trichotomy c 1 with h2 | h2 | h2
      · omega
      · exact Or.inr h2
      · have hle : (sk.params.q : ℤ) * 2 ≤ (sk.params.q : ℤ) * c :=
          mul_le_mul_of_nonneg_left (by omega) (by omega)
        omega
  show decrypt sk ct = decrypt_spec sk ct
  simp only [decrypt, decrypt_spec, hscale, ← hD]
  rw [if_neg (by
    simp only [Nat.cast_eq_zero]
    exact pow_ne_zero _ (by norm_num))]
  rcases hcases with hc0 | hc1
  · have hvm : ((mod_q D sk.params.q : ℕ) : ℤ) = mod_q_centered D sk.params.q := by
      rw [hc0, mul_zero] at hc
      omega
    rw [show (((mod_q D sk.params.q : ℕ) : ℤ) : ℚ) =
        ((mod_q_centered D sk.params.q : ℤ) : ℚ) from congrArg _ hvm]
  · have hvm : ((mod_q D sk.params.q : ℕ) : ℤ) =
        mod_q_centered D sk.params.q + sk.params.q := by
      rw [hc1, mul_one] at hc
      omega
    have hnum : (((mod_q D sk.params.q : ℕ) : ℤ) : ℚ) =
        ((mod_q_centered D sk.params.q : ℤ) : ℚ) + ((sk.params.q : ℤ) : ℚ) := by
      rw [hvm]
      push_cast
      ring
    have hS0 : (((2 ^ (sk.params.l - 1) : ℕ) : ℤ) : ℚ) ≠ 0 := by
      simp only [ne_eq, Int.cast_eq_zero, Nat.cast_eq_zero]
      exact pow_ne_zero _ (by norm_num)
    have hq2 : ((sk.params.q : ℤ) : ℚ) = 2 * (((2 ^ (sk.params.l - 1) : ℕ) : ℤ) : ℚ) := by
      rw [hE]
      push_cast
      ring
    rw [hnum, hq2, add_div, mul_div_assoc,
      div_self hS0, mul_one,
      show (2 : ℚ) = ((2 : ℤ) : ℚ) by norm_num, round_add_int,
      show round (((mod_q_centered D sk.params.q : ℤ) : ℚ) /
          (((2 ^ (sk.params.l - 1) : ℕ) : ℤ) : ℚ)) + 2
        = round (((mod_q_centered D sk.params.q : ℤ) : ℚ) /
          (((2 ^ (sk.params.l - 1) : ℕ) : ℤ) : ℚ)) + 2 * 1 by ring,
      Int.add_mul_emod_self_left]



/-- C1 witness: toy secret key `s = [1]` with `q = 4`, `l = 2`, and a
concrete `2 x 2` ciphertext. -/
theorem decrypt_follows_spec_witness :
    decrypt ⟨[1], ⟨4, 0, 2, 2, 1, 1⟩⟩ [[0, 0], [3, 1]] =
        decrypt_spec ⟨[1], ⟨4, 0, 2, 2, 1, 1⟩⟩ [[0, 0], [3, 1]] ∧
      (powers_of_2 [1] ⟨4, 0, 2, 2, 1, 1⟩).getD (2 - 1) 0 = 2 ^ (2 - 1) % 4 :=
  decrypt_follows_spec ⟨[1], ⟨4, 0, 2, 2, 1, 1⟩⟩ [[0, 0], [3, 1]]
    (by decide) (by decide) (by decide) (by decide)



lemma getD_map (f : ℕ → ℕ) (t : List ℕ) (j : ℕ) (hj : j < t.length) :
    (t.map f).getD j 0 = f (t.getD j 0) := by
  rw [List.getD_eq_getElem _ _ (by simpa using hj), List.getElem_map,
    List.getD_eq_getElem _ _ hj]

lemma mod_q_congr (x y : ℤ) (q : ℕ) (hq0 : 0 < q) (h : (q : ℤ) ∣ x - y) :
    mod_q x q = mod_q y q := by
  have hx := mod_q_cast x q hq0
  have hy := mod_q_cast y q hq0
  have hme : y % (q : ℤ) = x % (q : ℤ) := Int.modEq_iff_dvd.mpr h
  omega

lemma keygen_s (p : Params) (t : List ℕ) (b_mat : List (List ℕ)) (e : List ℤ) :
    (keygen p t b_mat e).1.s = 1 :: t.map (fun ti : ℕ => mod_q (-(ti : ℤ)) p.q) := rfl

/-- C4: keygen produces `s` of length `n+1` with `s[0] = 1` and
`s[j+1] = -t_j mod q`, and an `m x (n+1)` matrix `A` with `A · s ≡ e (mod q)`
row by row; with the error entries bounded by `B < q/2`, the centered residue
of each row dot product is exactly the sampled error, hence bounded by `B`. -/
theorem keygen_lwe_relation (p : Params) (t : List ℕ) (b_mat : List (List ℕ))
    (e : List ℤ) (hq : p.q = 2 ^ p.l) (hl : 1 ≤ p.l) (ht : t.length = p.n)
    (hB : ∀ i < p.m, -p.error_bound ≤ e.getD i 0 ∧ e.getD i 0 ≤ p.error_bound)
    (hBq : 2 * p.error_bound < (p.q : ℤ)) :
    (keygen p t b_mat e).1.s.length = p.n + 1 ∧
      (keygen p t b_mat e).1.s.getD 0 0 = 1 ∧
      (∀ j < p.n,
        (keygen p t b_mat e).1.s.getD (j + 1) 0 = mod_q (-(t.getD j 0 : ℤ)) p.q) ∧
      (keygen p t b_mat e).2.a.length = p.m ∧
      (∀ i < p.m, ((keygen p t b_mat e).2.a.getD i []).length = p.n + 1) ∧
      (∀ i < p.m,
        mod_q (∑ j in Finset.range (p.n + 1),
            (((keygen p t b_mat e).2.a.getD i []).getD j 0 : ℤ) *
              ((keygen p t b_mat e).1.s.getD j 0 : ℤ)) p.q
          = mod_q (e.getD i 0) p.q ∧
        mod_q_centered (∑ j in Finset.range (p.n + 1),
            (((keygen p t b_mat e).2.a.getD i []).getD j 0 : ℤ) *
              ((keygen p t b_mat e).1.s.getD j 0 : ℤ)) p.q
          = e.getD i 0) := by
  have hq0 : 0 < p.q := by rw [hq]; positivity
  have hrow : ∀ i < p.m, (keygen p t b_mat e).2.a.getD i [] =
      mod_q ((∑ j in Finset.range p.n,
          ((b_mat.getD i []).getD j 0 : ℤ) * (t.getD j 0 : ℤ)) + e.getD i 0) p.q
        :: (List.range p.n).map (fun j => (b_mat.getD i []).getD j 0) := by
    intro i hi
    show ((List.range p.m).map _).getD i [] = _
    rw [getD_map_range _ _ _ _ hi, getD_map_range _ _ _ _ hi]
  have hs_succ : ∀ j < p.n,
      (keygen p t b_mat e).1.s.getD (j + 1) 0 = mod_q (-(t.getD j 0 : ℤ)) p.q := by
    intro j hj
    rw [keygen_s, List.getD_cons_succ, getD_map _ _ _ (by omega)]
  have hs0 : (keygen p t b_mat e).1.s.getD 0 0 = 1 := rfl
  refine ⟨by simp [keygen_s, ht], hs0, hs_succ, by simp [keygen], ?_, ?_⟩
  · intro i hi
    rw [hrow i hi]
    simp
  · intro i hi
    have hj' : ∀ j < p.n,
        ((keygen p t b_mat e).2.a.getD i []).getD (j + 1) 0 =
          (b_mat.getD i []).getD j 0 := by
      intro j hj
      rw [hrow i hi, List.getD_cons_succ, getD_map_range _ _ _ _ hj]
    have h0 : ((keygen p t b_mat e).2.a.getD i []).getD 0 0 =
        mod_q ((∑ j in Finset.range p.n,
          ((b_mat.getD i []).getD j 0 : ℤ) * (t.getD j 0 : ℤ)) + e.getD i 0) p.q := by
      rw [hrow i hi, List.getD_cons_zero]
    have hsum_eq : ∑ j in Finset.range (p.n + 1),
        (((keygen p t b_mat e).2.a.getD i []).getD j 0 : ℤ) *
          ((keygen p t b_mat e).1.s.getD j 0 : ℤ)
        = (∑ j in Finset.range p.n,
            ((b_mat.getD i []).getD j 0 : ℤ) *
              ((mod_q (-(t.getD j 0 : ℤ)) p.q : ℕ) : ℤ))
          + ((mod_q ((∑ j in Finset.range p.n,
              ((b_mat.getD i []).getD j 0 : ℤ) * (t.getD j 0 : ℤ)) + e.getD i 0) p.q : ℕ) : ℤ)
            * 1 := by
      have hpart : ∑ j in Finset.range p.n,
          (((keygen p t b_mat e).2.a.getD i []).getD (j + 1) 0 : ℤ) *
            ((keygen p t b_mat e).1.s.getD (j + 1) 0 : ℤ)
          = ∑ j in Finset.range p.n,
            ((b_mat.getD i []).getD j 0 : ℤ) *
              ((mod_q (-(t.getD j 0 : ℤ)) p.q : ℕ) : ℤ) := by
        refine Finset.sum_congr rfl fun j hj => ?_
        rw [Finset.mem_range] at hj
        rw [hj' j hj, hs_succ j hj]
      rw [Finset.sum_range_succ', hpart, h0, hs0]
      push_cast
      ring
    have hz : ((∑ j in Finset.range (p.n + 1),
        (((keygen p t b_mat e).2.a.getD i []).getD j 0 : ℤ) *
          ((keygen p t b_mat e).1.s.getD j 0 : ℤ) : ℤ) : ZMod p.q)
        = ((e.getD i 0 : ℤ) : ZMod p.q) := by
      rw [hsum_eq]
      push_cast
      have hterm : ∀ j ∈ Finset.range p.n,
          ((b_mat.getD i []).getD j 0 : ZMod p.q) *
            ((mod_q (-(t.getD j 0 : ℤ)) p.q : ℕ) : ZMod p.q)
          = -(((b_mat.getD i []).getD j 0 : ZMod p.q) * (t.getD j 0 : ZMod p.q)) := by
        intro j _
        rw [mod_q_zmod _ _ hq0]
        push_cast
        ring
      rw [Finset.sum_congr rfl hterm, mod_q_zmod _ _ hq0]
      push_cast
      rw [Finset.sum_neg_distrib]
      ring
    have hdvd : (p.q : ℤ) ∣ (∑ j in Finset.range (p.n + 1),
        (((keygen p t b_mat e).2.a.getD i []).getD j 0 : ℤ) *
          ((keygen p t b_mat e).1.s.getD j 0 : ℤ)) - e.getD i 0 := by
      have hme := (ZMod.intCast_eq_intCast_iff _ _ _).mp hz
      have := Int.ModEq.dvd hme
      rw [show e.getD i 0 - (∑ j in Finset.range (p.n + 1),
          (((keygen p t b_mat e).2.a.getD i []).getD j 0 : ℤ) *
            ((keygen p t b_mat e).1.s.getD j 0 : ℤ))
          = -((∑ j in Finset.range (p.n + 1),
          (((keygen p t b_mat e).2.a.getD i []).getD j 0 : ℤ) *
            ((keygen p t b_mat e).1.s.getD j 0 : ℤ)) - e.getD i 0) by ring] at this
      exact (dvd_neg).mp this
    obtain ⟨hBlo, hBhi⟩ := hB i hi
    have hEq := q_eq_two_mul p.q p.l hq hl
    refine ⟨mod_q_congr _ _ _ hq0 hdvd, ?_⟩
    exact mod_q_centered_unique _ _ _ _ hq hl hdvd (by omega) (by omega)



/-- C4 witness: `q = 4`, `n = 1`, `m = 1`, `B = 1`, with `t = [3]`,
`b_mat = [[2]]`, `e = [1]`. -/
theorem keygen_lwe_relation_witness :
    (keygen ⟨4, 1, 2, 4, 1, 1⟩ [3] [[2]] [1]).1.s.length = 1 + 1 ∧
      (keygen ⟨4, 1, 2, 4, 1, 1⟩ [3] [[2]] [1]).1.s.getD 0 0 = 1 ∧
      (∀ j < 1, (keygen ⟨4, 1, 2, 4, 1, 1⟩ [3] [[2]] [1]).1.s.getD (j + 1) 0 =
        mod_q (-(([3] : List ℕ).getD j 0 : ℤ)) 4) ∧
      (keygen ⟨4, 1, 2, 4, 1, 1⟩ [3] [[2]] [1]).2.a.length = 1 ∧
      (∀ i < 1, ((keygen ⟨4, 1, 2, 4, 1, 1⟩ [3] [[2]] [1]).2.a.getD i []).length = 1 + 1) ∧
      (∀ i < 1,
        mod_q (∑ j in Finset.range (1 + 1),
            (((keygen ⟨4, 1, 2, 4, 1, 1⟩ [3] [[2]] [1]).2.a.getD i []).getD j 0 : ℤ) *
              ((keygen ⟨4, 1, 2, 4, 1, 1⟩ [3] [[2]] [1]).1.s.getD j 0 : ℤ)) 4
          = mod_q (([1] : List ℤ).getD i 0) 4 ∧
        mod_q_centered (∑ j in Finset.range (1 + 1),
            (((keygen ⟨4, 1, 2, 4, 1, 1⟩ [3] [[2]] [1]).2.a.getD i []).getD j 0 : ℤ) *
              ((keygen ⟨4, 1, 2, 4, 1, 1⟩ [3] [[2]] [1]).1.s.getD j 0 : ℤ)) 4
          = ([1] : List ℤ).getD i 0) :=
  keygen_lwe_relation ⟨4, 1, 2, 4, 1, 1⟩ [3] [[2]] [1]
    (by decide) (by decide) (by decide) (by decide) (by decide)



lemma coef_fold (c_row : List ℕ) (q B K : ℕ) (hq0 : 0 < q) (L : ℕ) :
    List.foldl (fun coef j_bit =>
        ((mod_q (coef +
          ((mod_q ((c_row.getD (B + j_bit) 0 : ℤ) * 2 ^ (K + j_bit)) q : ℕ) : ℤ)) q : ℕ) : ℤ))
      0 (List.range L)
    = (((∑ j in Finset.range L, c_row.getD (B + j) 0 * 2 ^ (K + j)) % q : ℕ) : ℤ) := by
  induction L with
  | zero => simp
  | succ L ih =>
    rw [List.range_succ, List.foldl_append, List.foldl_cons, List.foldl_nil, ih]
    have h1 : ((c_row.getD (B + L) 0 : ℤ)) * 2 ^ (K + L)
        = ((c_row.getD (B + L) 0 * 2 ^ (K + L) : ℕ) : ℤ) := by
      push_cast
      ring
    rw [h1, mod_q_ofNat _ _ hq0]
    have h2 : (((∑ j in Finset.range L, c_row.getD (B + j) 0 * 2 ^ (K + j)) % q : ℕ) : ℤ)
        + ((c_row.getD (B + L) 0 * 2 ^ (K + L) % q : ℕ) : ℤ)
        = ((((∑ j in Finset.range L, c_row.getD (B + j) 0 * 2 ^ (K + j)) % q
            + c_row.getD (B + L) 0 * 2 ^ (K + L) % q : ℕ)) : ℤ) := by
      push_cast
      ring
    rw [h2, mod_q_ofNat _ _ hq0]
    refine congrArg _ ?_
    rw [← Nat.add_mod, Finset.sum_range_succ]

lemma bootstrap_coefficients_length (p : Params) (c_row : List ℕ) :
    (bootstrap_coefficients p c_row).length = p.n_expanded := by
  simp [bootstrap_coefficients]

lemma bootstrap_coefficients_getD (p : Params) (c_row : List ℕ) (i : ℕ)
    (hq0 : 0 < p.q) (hi : i < p.n_expanded) :
    (bootstrap_coefficients p c_row).getD i 0 =
      (∑ j in Finset.range p.l,
        c_row.getD (i / p.l * p.l + j) 0 * 2 ^ (i % p.l + j)) % p.q := by
  simp only [bootstrap_coefficients]
  rw [getD_map_range _ _ _ _ hi, coef_fold c_row p.q (i / p.l * p.l) (i % p.l) hq0 p.l,
    mod_q_ofNat _ _ hq0, Nat.mod_mod_of_dvd _ (dvd_refl _)]

lemma zmod_coef_block (g : ℕ → ℕ) (x l q : ℕ) (hq : q = 2 ^ l) (hx : x < q) :
    ∑ r in Finset.range l,
        (((∑ jb in Finset.range l, g jb * 2 ^ (r + jb)) % q : ℕ) : ZMod q) *
          (((x >>> r) &&& 1 : ℕ) : ZMod q)
      = ∑ r in Finset.range l,
        ((g r : ℕ) : ZMod q) * ((mod_q ((x : ℤ) * 2 ^ r) q : ℕ) : ZMod q) := by
  have hq0 : 0 < q := by rw [hq]; positivity
  calc ∑ r in Finset.range l,
        (((∑ jb in Finset.range l, g jb * 2 ^ (r + jb)) % q : ℕ) : ZMod q) *
          (((x >>> r) &&& 1 : ℕ) : ZMod q)
      = ∑ r in Finset.range l, ∑ jb in Finset.range l,
          (g jb : ZMod q) * 2 ^ jb * ((((x >>> r) &&& 1 : ℕ) : ZMod q) * 2 ^ r) := by
        refine Finset.sum_congr rfl fun r _ => ?_
        rw [ZMod.natCast_mod, Nat.cast_sum, Finset.sum_mul]
        refine Finset.sum_congr rfl fun jb _ => ?_
        push_cast [pow_add]
        ring
    _ = ∑ jb in Finset.range l,
          (g jb : ZMod q) * 2 ^ jb * ∑ r in Finset.range l,
            (((x >>> r) &&& 1 : ℕ) : ZMod q) * 2 ^ r := by
        rw [Finset.sum_comm]
        refine Finset.sum_congr rfl fun jb _ => ?_
        rw [Finset.mul_sum]
    _ = ∑ jb in Finset.range l, (g jb : ZMod q) * 2 ^ jb * ((x : ℕ) : ZMod q) := by
        refine Finset.sum_congr rfl fun jb _ => ?_
        congr 1
        calc ∑ r in Finset.range l, (((x >>> r) &&& 1 : ℕ) : ZMod q) * 2 ^ r
            = ((∑ r in Finset.range l, ((x >>> r) &&& 1) * 2 ^ r : ℕ) : ZMod q) := by
              push_cast
              rfl
          _ = ((x % 2 ^ l : ℕ) : ZMod q) := by rw [sum_bits]
          _ = ((x : ℕ) : ZMod q) := by rw [← hq, Nat.mod_eq_of_lt hx]
    _ = ∑ r in Finset.range l,
          ((g r : ℕ) : ZMod q) * ((mod_q ((x : ℤ) * 2 ^ r) q : ℕ) : ZMod q) := by
        refine Finset.sum_congr rfl fun r _ => ?_
        rw [mod_q_zmod _ _ hq0]
        push_cast
        ring



/-- C3: the coefficient vector computed by `bootstrap` satisfies
`coef[i] = (Σ_{j_bit<l} c[block*l + j_bit] * 2^(k + j_bit)) mod q` with
`block = i / l` and `k = i % l`, and
`⟨coef, BitDecomp(s)⟩ ≡ ⟨c, PowersOf2(s)⟩ (mod q)`: the rewritten
coefficients against the bit-decomposition of `s` reconstruct the clear
decryption linear part. -/
theorem bootstrap_coefficients_reconstruct (p : Params) (c s : List ℕ)
    (hq : p.q = 2 ^ p.l) (hl : 1 ≤ p.l) (hN : p.n_expanded = (p.n + 1) * p.l)
    (hc : c.length = p.n_expanded) (hs : s.length = p.n + 1)
    (hsq : ∀ x ∈ s, x < p.q) :
    (∀ i < p.n_expanded, (bootstrap_coefficients p c).getD i 0 =
      (∑ j_bit in Finset.range p.l,
        c.getD (i / p.l * p.l + j_bit) 0 * 2 ^ (i % p.l + j_bit)) % p.q) ∧
      dot (bootstrap_coefficients p c) (bit_decomp s p) ≡
        dot c (powers_of_2 s p) [MOD p.q] := by
  have hq0 : 0 < p.q := by rw [hq]; positivity
  have hl0 : 0 < p.l := by omega
  refine ⟨fun i hi => bootstrap_coefficients_getD p c i hq0 hi, ?_⟩
  apply (ZMod.natCast_eq_natCast_iff _ _ _).mp
  have hL : dot (bootstrap_coefficients p c) (bit_decomp s p) =
      ∑ i in Finset.range p.n_expanded,
        (bootstrap_coefficients p c).getD i 0 * (bit_decomp s p).getD i 0 :=
    dot_eq_sum _ _ _ (bootstrap_coefficients_length p c)
      (by rw [bit_decomp_length, hs, ← hN])
  have hR : dot c (powers_of_2 s p) =
      ∑ i in Finset.range p.n_expanded,
        c.getD i 0 * (powers_of_2 s p).getD i 0 :=
    dot_eq_sum _ _ _ hc (by rw [powers_of_2_length, hs, ← hN])
  rw [hL, hR, hN, sum_range_mul, sum_range_mul, Nat.cast_sum, Nat.cast_sum]
  refine Finset.sum_congr rfl fun j hj => ?_
  rw [Finset.mem_range] at hj
  have hdiv : ∀ r < p.l, (j * p.l + r) / p.l = j := by
    intro r hr
    rw [Nat.add_comm, Nat.add_mul_div_right _ _ hl0, Nat.div_eq_of_lt hr, Nat.zero_add]
  have hmod : ∀ r < p.l, (j * p.l + r) % p.l = r := by
    intro r hr
    rw [Nat.add_comm, Nat.add_mul_mod_self_right, Nat.mod_eq_of_lt hr]
  have hidx : ∀ r < p.l, j * p.l + r < p.n_expanded := by
    intro r hr
    rw [hN]
    calc j * p.l + r < j * p.l + p.l := by omega
    _ = (j + 1) * p.l := by ring
    _ ≤ (p.n + 1) * p.l := Nat.mul_le_mul_right _ (by omega)
  have hLin : ∑ r in Finset.range p.l,
      ((bootstrap_coefficients p c).getD (j * p.l + r) 0 *
        (bit_decomp s p).getD (j * p.l + r) 0 : ℕ) =
      ∑ r in Finset.range p.l,
        ((∑ jb in Finset.range p.l,
          c.getD (j * p.l + jb) 0 * 2 ^ (r + jb)) % p.q) *
          ((s.getD j 0 >>> r) &&& 1) := by
    refine Finset.sum_congr rfl fun r hr => ?_
    rw [Finset.mem_range] at hr
    rw [bootstrap_coefficients_getD p c _ hq0 (hidx r hr),
      bit_decomp_getD s p j r (by omega) hr, hdiv r hr, hmod r hr]
  have hRin : ∑ r in Finset.range p.l,
      (c.getD (j * p.l + r) 0 * (powers_of_2 s p).getD (j * p.l + r) 0 : ℕ) =
      ∑ r in Finset.range p.l,
        c.getD (j * p.l + r) 0 * mod_q ((s.getD j 0 : ℤ) * 2 ^ r) p.q := by
    refine Finset.sum_congr rfl fun r hr => ?_
    rw [Finset.mem_range] at hr
    rw [powers_of_2_getD s p j r (by omega) hr]
  rw [hLin, hRin, Nat.cast_sum, Nat.cast_sum]
  have hsj : s.getD j 0 < p.q := by
    rw [List.getD_eq_getElem _ _ (by omega)]
    exact hsq _ (List.getElem_mem _)
  have hblock := zmod_coef_block (fun jb => c.getD (j * p.l + jb) 0)
    (s.getD j 0) p.l p.q hq hsj
  calc ∑ r in Finset.range p.l,
      ((((∑ jb in Finset.range p.l, c.getD (j * p.l + jb) 0 * 2 ^ (r + jb)) % p.q) *
        ((s.getD j 0 >>> r) &&& 1) : ℕ) : ZMod p.q)
      = ∑ r in Finset.range p.l,
        (((∑ jb in Finset.range p.l, c.getD (j * p.l + jb) 0 * 2 ^ (r + jb)) % p.q : ℕ) :
          ZMod p.q) * (((s.getD j 0 >>> r) &&& 1 : ℕ) : ZMod p.q) := by
        refine Finset.sum_congr rfl fun r _ => ?_
        push_cast
        ring
    _ = ∑ r in Finset.range p.l,
        ((c.getD (j * p.l + r) 0 : ℕ) : ZMod p.q) *
          ((mod_q ((s.getD j 0 : ℤ) * 2 ^ r) p.q : ℕ) : ZMod p.q) := hblock
    _ = ∑ r in Finset.range p.l,
        ((c.getD (j * p.l + r) 0 * mod_q ((s.getD j 0 : ℤ) * 2 ^ r) p.q : ℕ) : ZMod p.q) := by
        refine Finset.sum_congr rfl fun r _ => ?_
        push_cast
        ring



/-- C3 witness at `q = 4`, `l = 2`, `n = 0`, `N = 2`, `c = [1,3]`, `s = [3]`. -/
theorem bootstrap_coefficients_reconstruct_witness :
    (∀ i < 2, (bootstrap_coefficients ⟨4, 0, 2, 2, 1, 1⟩ [1, 3]).getD i 0 =
      (∑ j_bit in Finset.range 2,
        ([1, 3] : List ℕ).getD (i / 2 * 2 + j_bit) 0 * 2 ^ (i % 2 + j_bit)) % 4) ∧
      dot (bootstrap_coefficients ⟨4, 0, 2, 2, 1, 1⟩ [1, 3])
          (bit_decomp [3] ⟨4, 0, 2, 2, 1, 1⟩) ≡
        dot [1, 3] (powers_of_2 [3] ⟨4, 0, 2, 2, 1, 1⟩) [MOD (Params.mk 4 0 2 2 1 1).q] :=
  bootstrap_coefficients_reconstruct ⟨4, 0, 2, 2, 1, 1⟩ [1, 3] [3]
    (by decide) (by decide) (by decide) (by decide) (by decide) (by decide)



lemma binary_of_flatten_matrix (M : List (List ℕ)) (p : Params)
    (hlen : M.length = p.n_expanded)
    (hrows : ∀ row ∈ M, row.length / p.l * p.l = p.n_expanded) :
    is_binary_matrix (flatten_matrix M p) p.n_expanded := by
  refine ⟨by simpa [flatten_matrix] using hlen, ?_⟩
  intro row hrow
  simp only [flatten_matrix, List.mem_map] at hrow
  obtain ⟨r, hr, rfl⟩ := hrow
  refine ⟨by rw [flatten_length]; exact hrows r hr, ?_⟩
  intro x hx
  have := flatten_entry_le_one r p x hx
  omega

lemma row_div_self (p : Params) (hN : p.n_expanded = (p.n + 1) * p.l)
    (hl : 1 ≤ p.l) : p.n_expanded / p.l * p.l = p.n_expanded := by
  rw [hN, Nat.mul_div_cancel _ (by omega)]

lemma homomorphic_add_binary (p : Params) (ct1 ct2 : List (List ℕ))
    (hN : p.n_expanded = (p.n + 1) * p.l) (hl : 1 ≤ p.l) :
    is_binary_matrix (homomorphic_add p ct1 ct2) p.n_expanded := by
  apply binary_of_flatten_matrix _ _ (by simp)
  intro row hrow
  simp only [List.mem_map] at hrow
  obtain ⟨i, -, rfl⟩ := hrow
  simp only [List.length_map, List.length_range]
  exact row_div_self p hN hl

lemma scaled_binary (p : Params) (ct : List (List ℕ)) (coeff : ℕ)
    (hN : p.n_expanded = (p.n + 1) * p.l) (hl : 1 ≤ p.l) :
    is_binary_matrix (flatten_matrix ((List.range p.n_expanded).map (fun i =>
      (List.range p.n_expanded).map (fun j =>
        mod_q (((ct.getD i []).getD j 0 : ℤ) * (coeff : ℤ)) p.q))) p) p.n_expanded := by
  apply binary_of_flatten_matrix _ _ (by simp)
  intro row hrow
  simp only [List.mem_map] at hrow
  obtain ⟨i, -, rfl⟩ := hrow
  simp only [List.length_map, List.length_range]
  exact row_div_self p hN hl

lemma zeros_binary (p : Params) :
    is_binary_matrix
      (List.replicate p.n_expanded (List.replicate p.n_expanded 0)) p.n_expanded := by
  refine ⟨List.length_replicate _ _, ?_⟩
  intro row hrow
  rw [List.eq_of_mem_replicate hrow]
  refine ⟨List.length_replicate _ _, ?_⟩
  intro x hx
  rw [List.eq_of_mem_replicate hx]
  exact Or.inl rfl

lemma hlf_binary (p : Params) (cts : List (List (List ℕ))) (coefs : List ℕ)
    (hN : p.n_expanded = (p.n + 1) * p.l) (hl : 1 ≤ p.l) :
    is_binary_matrix (homomorphic_linear_fixed p cts coefs) p.n_expanded := by
  have key : ∀ (ps : List (List (List ℕ) × ℕ)) (acc : Option (List (List ℕ))),
      (∀ M, acc = some M → is_binary_matrix M p.n_expanded) →
      ∀ M, ps.foldl (fun result pair =>
        if pair.2 = 0 then result
        else
          match result with
          | none => some (flatten_matrix ((List.range p.n_expanded).map (fun i =>
              (List.range p.n_expanded).map (fun j =>
                mod_q (((pair.1.getD i []).getD j 0 : ℤ) * (pair.2 : ℤ)) p.q))) p)
          | some acc => some (homomorphic_add p acc
              (flatten_matrix ((List.range p.n_expanded).map (fun i =>
                (List.range p.n_expanded).map (fun j =>
                  mod_q (((pair.1.getD i []).getD j 0 : ℤ) * (pair.2 : ℤ)) p.q))) p)))
        acc = some M → is_binary_matrix M p.n_expanded := by
    intro ps
    induction ps with
    | nil => intro acc hacc M hM; exact hacc M hM
    | cons pr ps ih =>
      intro acc hacc M hM
      rw [List.foldl_cons] at hM
      refine ih _ ?_ M hM
      intro M' hM'
      split_ifs at hM' with hc
      · exact hacc M' hM'
      · rcases hacca : acc with - | a
        · rw [hacca] at hM'
          simp only [Option.some.injEq] at hM'
          rw [← hM']
          exact scaled_binary p pr.1 pr.2 hN hl
        · rw [hacca] at hM'
          simp only [Option.some.injEq] at hM'
          rw [← hM']
          exact homomorphic_add_binary p _ _ hN hl
  show is_binary_matrix (Option.getD _ _) p.n_expanded
  rcases hres : (cts.zip coefs).foldl _ none with - | M
  · rw [Option.getD_none]
    exact zeros_binary p
  · rw [Option.getD_some]
    exact key (cts.zip coefs) none (by intro M hM; cases hM) M hres



lemma getD_map_of_lt {α β : Type} (g : α → β) (t : List α) (j : ℕ)
    (hj : j < t.length) (d1 : β) (d2 : α) :
    (t.map g).getD j d1 = g (t.getD j d2) := by
  rw [List.getD_eq_getElem _ _ (by simpa using hj), List.getElem_map,
    List.getD_eq_getElem _ _ hj]

lemma encrypt_binary (pk : PublicKey) (r : List (List ℕ)) (bit : ℕ)
    (hN : pk.params.n_expanded = (pk.params.n + 1) * pk.params.l)
    (hl : 1 ≤ pk.params.l) :
    is_binary_matrix (encrypt pk r bit) pk.params.n_expanded := by
  apply binary_of_flatten_matrix _ _ (by simp)
  intro row hrow
  simp only [List.mem_map, List.mem_range] at hrow
  obtain ⟨i, hi, rfl⟩ := hrow
  rw [List.length_set, getD_map_of_lt _ _ i (by simpa using hi) [] [],
    bit_decomp_length, getD_map_range _ _ _ _ hi]
  simp only [List.length_map, List.length_range]
  rw [← hN]
  exact row_div_self pk.params hN hl

lemma homomorphic_mult_binary (p : Params) (ct1 ct2 : List (List ℕ))
    (hN : p.n_expanded = (p.n + 1) * p.l) (hl : 1 ≤ p.l) :
    is_binary_matrix (homomorphic_mult p ct1 ct2) p.n_expanded := by
  apply binary_of_flatten_matrix _ _ (by simp)
  intro row hrow
  simp only [List.mem_map] at hrow
  obtain ⟨i, -, rfl⟩ := hrow
  simp only [List.length_map, List.length_range]
  exact row_div_self p hN hl

lemma homomorphic_nand_binary (p : Params) (ct1 ct2 : List (List ℕ))
    (hN : p.n_expanded = (p.n + 1) * p.l) (hl : 1 ≤ p.l) :
    is_binary_matrix (homomorphic_nand p ct1 ct2) p.n_expanded := by
  apply binary_of_flatten_matrix _ _ (by simp)
  intro row hrow
  simp only [List.mem_map] at hrow
  obtain ⟨i, -, rfl⟩ := hrow
  simp only [List.length_map, List.length_range]
  exact row_div_self p hN hl

/-- C6: every ciphertext produced by `encrypt`, `homomorphic_add`,
`homomorphic_mult`, `homomorphic_nand` or `bootstrap` is an `N x N`
matrix with all entries in `{0, 1}`, because each operation ends with a
row-wise Flatten (and the empty linear combination yields the zero
matrix, also binary). -/
theorem outputs_binary (pk : PublicKey) (r : List (List ℕ)) (bit : ℕ)
    (p : Params) (ct1 ct2 noisy : List (List ℕ)) (ek : EvaluationKey)
    (hNpk : pk.params.n_expanded = (pk.params.n + 1) * pk.params.l)
    (hlpk : 1 ≤ pk.params.l)
    (hN : p.n_expanded = (p.n + 1) * p.l) (hl : 1 ≤ p.l) :
    is_binary_matrix (encrypt pk r bit) pk.params.n_expanded ∧
      is_binary_matrix (homomorphic_add p ct1 ct2) p.n_expanded ∧
      is_binary_matrix (homomorphic_mult p ct1 ct2) p.n_expanded ∧
      is_binary_matrix (homomorphic_nand p ct1 ct2) p.n_expanded ∧
      is_binary_matrix (bootstrap p noisy ek) p.n_expanded :=
  ⟨encrypt_binary pk r bit hNpk hlpk,
    homomorphic_add_binary p ct1 ct2 hN hl,
    homomorphic_mult_binary p ct1 ct2 hN hl,
    homomorphic_nand_binary p ct1 ct2 hN hl,
    hlf_binary p ek.encryptions _ hN hl⟩

/-- C6 witness at the smallest parameter set `q = 2`, `l = 1`, `n = 0`,
`N = 1`, `m = 1`. -/
theorem outputs_binary_witness :
    is_binary_matrix (encrypt ⟨[[1]], ⟨2, 0, 1, 1, 1, 1⟩⟩ [[1]] 1)
        (PublicKey.mk [[1]] ⟨2, 0, 1, 1, 1, 1⟩).params.n_expanded ∧
      is_binary_matrix (homomorphic_add ⟨2, 0, 1, 1, 1, 1⟩ [[0]] [[1]]) 1 ∧
      is_binary_matrix (homomorphic_mult ⟨2, 0, 1, 1, 1, 1⟩ [[0]] [[1]]) 1 ∧
      is_binary_matrix (homomorphic_nand ⟨2, 0, 1, 1, 1, 1⟩ [[0]] [[1]]) 1 ∧
      is_binary_matrix (bootstrap ⟨2, 0, 1, 1, 1, 1⟩ [[1]] ⟨[[[1]]], ⟨2, 0, 1, 1, 1, 1⟩⟩) 1 :=
  outputs_binary ⟨[[1]], ⟨2, 0, 1, 1, 1, 1⟩⟩ [[1]] 1 ⟨2, 0, 1, 1, 1, 1⟩ [[0]] [[1]] [[1]]
    ⟨[[[1]]], ⟨2, 0, 1, 1, 1, 1⟩⟩ (by decide) (by decide) (by decide) (by decide)



lemma mod_q_zero (q : ℕ) : mod_q 0 q = 0 := by
  simp [mod_q, Int.zero_tmod]

lemma hlf_all_zero (p : Params) (cts : List (List (List ℕ))) (coefs : List ℕ)
    (hz : ∀ x ∈ coefs, x = 0) :
    homomorphic_linear_fixed p cts coefs =
      List.replicate p.n_expanded (List.replicate p.n_expanded 0) := by
  have key : ∀ (ps : List (List (List ℕ) × ℕ)), (∀ pr ∈ ps, pr.2 = 0) →
      ∀ acc : Option (List (List ℕ)),
      ps.foldl (fun result pair =>
        if pair.2 = 0 then result
        else
          match result with
          | none => some (flatten_matrix ((List.range p.n_expanded).map (fun i =>
              (List.range p.n_expanded).map (fun j =>
                mod_q (((pair.1.getD i []).getD j 0 : ℤ) * (pair.2 : ℤ)) p.q))) p)
          | some acc => some (homomorphic_add p acc
              (flatten_matrix ((List.range p.n_expanded).map (fun i =>
                (List.range p.n_expanded).map (fun j =>
                  mod_q (((pair.1.getD i []).getD j 0 : ℤ) * (pair.2 : ℤ)) p.q))) p)))
        acc = acc := by
    intro ps
    induction ps with
    | nil => intro hz0 acc; rfl
    | cons pr ps ih =>
      intro hz0 acc
      rw [List.foldl_cons, if_pos (hz0 pr (by simp))]
      exact ih (fun x hx => hz0 x (by simp [hx])) acc
  show Option.getD _ _ = _
  rw [key (cts.zip coefs) (fun pr hpr => hz pr.2 (List.of_mem_zip hpr).2) none,
    Option.getD_none]

lemma bootstrap_coefficients_zero (p : Params) (c_row : List ℕ)
    (hrow : ∀ j, c_row.getD j 0 = 0) :
    ∀ x ∈ bootstrap_coefficients p c_row, x = 0 := by
  intro x hx
  simp only [bootstrap_coefficients, List.mem_map, List.mem_range] at hx
  obtain ⟨i, -, rfl⟩ := hx
  have hstep : ∀ (L : ℕ),
      List.foldl (fun coef j_bit =>
        ((mod_q (coef +
          ((mod_q ((c_row.getD (i / p.l * p.l + j_bit) 0 : ℤ) * 2 ^ (i % p.l + j_bit))
            p.q : ℕ) : ℤ)) p.q : ℕ) : ℤ)) 0 (List.range L) = 0 := by
    intro L
    induction L with
    | zero => rfl
    | succ L ih =>
      rw [List.range_succ, List.foldl_append, List.foldl_cons, List.foldl_nil, ih,
        hrow (i / p.l * p.l + L)]
      norm_num [mod_q_zero]
  rw [hstep p.l, mod_q_zero]

/-- C10: when every coefficient computed by `bootstrap` is zero — in
particular whenever row `l-1` of the input ciphertext is all zero — the
homomorphic linear-combination fold never initializes its accumulator and
the result is the `N x N` all-zero matrix. -/
theorem bootstrap_zero_row (p : Params) (cts : List (List (List ℕ)))
    (coefs : List ℕ) (noisy : List (List ℕ)) (ek : EvaluationKey)
    (hz : ∀ x ∈ coefs, x = 0)
    (hrow : ∀ j, (noisy.getD (p.l - 1) []).getD j 0 = 0) :
    homomorphic_linear_fixed p cts coefs =
        List.replicate p.n_expanded (List.replicate p.n_expanded 0) ∧
      bootstrap p noisy ek =
        List.replicate p.n_expanded (List.replicate p.n_expanded 0) :=
  ⟨hlf_all_zero p cts coefs hz,
    hlf_all_zero p ek.encryptions _ (bootstrap_coefficients_zero p _ hrow)⟩

/-- C10 witness: `q = 4`, `l = 2`, `N = 2`, a ciphertext whose row `l-1 = 1`
is `[0, 0]`, and an explicit all-zero coefficient vector. -/
theorem bootstrap_zero_row_witness :
    homomorphic_linear_fixed ⟨4, 0, 2, 2, 1, 1⟩ [[[1, 1], [0, 1]]] [0] =
        List.replicate 2 (List.replicate 2 0) ∧
      bootstrap ⟨4, 0, 2, 2, 1, 1⟩ [[1, 2], [0, 0]] ⟨[[[1, 1], [0, 1]]], ⟨4, 0, 2, 2, 1, 1⟩⟩ =
        List.replicate 2 (List.replicate 2 0) :=
  bootstrap_zero_row ⟨4, 0, 2, 2, 1, 1⟩ [[[1, 1], [0, 1]]] [0] [[1, 2], [0, 0]]
    ⟨[[[1, 1], [0, 1]]], ⟨4, 0, 2, 2, 1, 1⟩⟩ (by decide)
    (fun j => by
      match j with
      | 0 => rfl
      | 1 => rfl
      | (k + 2) => rfl)


end Gsw
